import Mathlib

/-!
# Verification of the exotic intrusive red-black tree core (`rbtreeNodeBase`)

This file gives a shallow embedding of `exotic/rbtree.hpp` and `rbtree.cpp`
(the intrusive red-black tree with duplicate-key queues) and settles the
frozen claims about it.

Modelling conventions:

* A node address is a `Nat`; address `0` plays the role of `nullptr`.
  A read or write through a null pointer in the C++ (undefined behavior
  there) appears in the model as a read or write of the junk node at
  address `0`.
* A node is a record of its `flags` word and the three pointer slots of the
  C++ `union`.  The union overlay is resolved positionally, exactly as the
  C++ object layout does:
    - slot 0: `sentinel._1` / `single.parent` / `mulext.parent` / `mulint.mulext`
    - slot 1: `sentinel.root` / `single.left` / `mulext.back` / `mulint.previous`
    - slot 2: `sentinel._2` / `single.right` / `mulext.front` / `mulint.next`
* A heap is a total function from addresses to nodes.  A C++ `rbtreeNodeBase**`
  (the address of a pointer field) is modelled as a pair `(address, slot)`.
* The C++ `while` loops are modelled with an explicit fuel parameter; every
  statement of the source is replicated in order, reading and writing the
  heap at the same sequence points as the source.
-/

namespace Exotic

/-- A node address; `0` stands for the C++ `nullptr`. -/
abbrev Ptr := Nat

/-- The embedded `rbtreeNodeBase` record: the `flags` word and the three
pointer slots of the C++ union (see the slot table in the file header). -/
structure Node where
  flags : Nat
  s0 : Ptr
  s1 : Ptr
  s2 : Ptr
deriving DecidableEq, Repr

/-- The all-zero node: `rbfOrphan` flags and null pointers.  This is the
state produced by the `rbtreeNodeBase` default constructor. -/
def zeroNode : Node := ⟨0, 0, 0, 0⟩

/-- The memory state: a total map from addresses to nodes. -/
abbrev Heap := Ptr → Node

/-- The address of a pointer field: node address paired with a slot index. -/
abbrev Field := Ptr × Nat

/-- Read one pointer slot of a node. -/
def getSlot (n : Node) (i : Nat) : Ptr :=
  if i = 0 then n.s0 else if i = 1 then n.s1 else n.s2

/-- Overwrite one pointer slot of a node. -/
def setSlot (n : Node) (i : Nat) (v : Ptr) : Node :=
  if i = 0 then ⟨n.flags, v, n.s1, n.s2⟩
  else if i = 1 then ⟨n.flags, n.s0, v, n.s2⟩
  else ⟨n.flags, n.s0, n.s1, v⟩

/-- Dereference a field address (the C++ `*f` on a `rbtreeNodeBase**`). -/
def readF (h : Heap) (f : Field) : Ptr := getSlot (h f.1) f.2

/-- Store through a field address (the C++ `*f = v`). -/
def writeF (h : Heap) (f : Field) (v : Ptr) : Heap :=
  fun m => if m = f.1 then setSlot (h m) f.2 v else h m

/-- Replace a whole node (used for the orphan resets and stack allocation). -/
def updNode (h : Heap) (n : Ptr) (nd : Node) : Heap :=
  fun m => if m = n then nd else h m

/-- Overwrite the `flags` word of a node. -/
def setFlags (h : Heap) (n : Ptr) (fl : Nat) : Heap :=
  fun m => if m = n then ⟨fl, (h m).s0, (h m).s1, (h m).s2⟩ else h m

/-! ## Flag constants (`rbtreeFlag`) -/

def rbfOrphan : Nat := 0
def rbfSingle : Nat := 1
def rbfMulext : Nat := 2
def rbfMulint : Nat := 3
def rbfTypeMask : Nat := 3
def rbfMulintFront : Nat := 4
def rbfMulintBack : Nat := 8
def rbfMulintFrontBack : Nat := 12
def rbfColorRed : Nat := 0
def rbfColorBlack : Nat := 4
def rbfColorMask : Nat := 4

/-- `flags & rbfTypeMask` of the node at `n`. -/
def typeOf (h : Heap) (n : Ptr) : Nat := (h n).flags &&& rbfTypeMask

/-- `rbtreeNodeBase::red`: null is not red, otherwise the color bit is clear. -/
def red (h : Heap) (n : Ptr) : Bool :=
  if n = 0 then false else (h n).flags &&& rbfColorMask = rbfColorRed

/-- `rbtreeNodeBase::black`: null counts as black, otherwise the color bit is set. -/
def black (h : Heap) (n : Ptr) : Bool :=
  if n = 0 then true else (h n).flags &&& rbfColorMask = rbfColorBlack

/-- `rbtreeNodeBase::flipColor`: toggle the color bit. -/
def flipColor (h : Heap) (n : Ptr) : Heap :=
  setFlags h n ((h n).flags ^^^ rbfColorMask)

/-- `rbtreeNodeBase::swapColor`: exchange the colors of two nodes (flip both
exactly when the color bits differ). -/
def swapColor (h : Heap) (a b : Ptr) : Heap :=
  if ((h a).flags ^^^ (h b).flags) &&& rbfColorMask ≠ 0 then
    flipColor (flipColor h a) b
  else h

/-! ## Link accessors (`exotic/rbtree.hpp`) -/

/-- `extparent()`: the parent field is slot 0 for both external node kinds. -/
def extparentF (n : Ptr) : Field := (n, 0)

/-- `extleft()`: for a `mulext` node the left-child slot is
`front->mulint.previous`, otherwise `single.left`. -/
def extleftF (h : Heap) (n : Ptr) : Field :=
  if typeOf h n = rbfMulext then ((h n).s2, 1) else (n, 1)

/-- `extright()`: for a `mulext` node the right-child slot is
`back->mulint.next`, otherwise `single.right`. -/
def extrightF (h : Heap) (n : Ptr) : Field :=
  if typeOf h n = rbfMulext then ((h n).s1, 2) else (n, 2)

/-- `extfetchLinks` with the default chirality: `(parent, left, right)`. -/
def extfetch3 (h : Heap) (n : Ptr) : Field × Field × Field :=
  (extparentF n, extleftF h n, extrightF h n)

/-- `extfetchLinks` with a chirality flag: `(parent, outer, inner)` where
`outer` is `right` when the chirality is set and `left` otherwise. -/
def extfetchChir (h : Heap) (n : Ptr) (chir : Bool) : Field × Field × Field :=
  (extparentF n,
   if chir then extrightF h n else extleftF h n,
   if chir then extleftF h n else extrightF h n)

/-- `extreferred()`: the field inside the parent that points back at `n`,
resolved through the parent's tag exactly as the C++ does (including its
`front->next` answer for the non-left case of a `mulext` parent). -/
def extreferred (h : Heap) (n : Ptr) : Field :=
  let p := (h n).s0
  if typeOf h p = rbfMulext then
    if (h ((h p).s2)).s1 = n then ((h p).s2, 1) else ((h p).s2, 2)
  else if typeOf h p = rbfSingle then
    if (h p).s1 = n then (p, 1) else (p, 2)
  else (p, 1)

/-- `isRoot()`: an external node whose parent has the `rbfOrphan` tag. -/
def isRoot (h : Heap) (n : Ptr) : Bool :=
  if typeOf h n = rbfSingle ∨ typeOf h n = rbfMulext then
    typeOf h ((h n).s0) = rbfOrphan
  else false

/-! ## Rebalancing engine (`rbtree.cpp`) -/

/-- The code after the `doubleRedResolve` loop: recolor a red root black. -/
def dRRfinish (h : Heap) (node : Ptr) : Heap :=
  if red h node ∧ isRoot h node then flipColor h node else h

/-- `rbtreeNodeBase::doubleRedResolve`, with explicit fuel for the loop.
Every statement of the source is replicated in order. -/
def doubleRedResolve : Nat → Heap → Ptr → Heap
  | 0, h, node => dRRfinish h node
  | fuel + 1, h, node =>
    if red h node ∧ ¬ isRoot h node then
      let nodeParentF : Field := (node, 0)
      let parent := readF h nodeParentF
      let pl := extfetch3 h parent
      let parentParentF := pl.1
      let parentLeftF := pl.2.1
      let parentRightF := pl.2.2
      let grand := readF h parentParentF
      let gl := extfetch3 h grand
      let grandParentF := gl.1
      let grandLeftF := gl.2.1
      let grandRightF := gl.2.2
      let chirality := readF h grandRightF = parent
      let uncle := if chirality then readF h grandLeftF else readF h grandRightF
      if red h uncle then
        let h := flipColor h parent
        let h := flipColor h uncle
        let h := flipColor h grand
        doubleRedResolve fuel h grand
      else
        let parentInnerF := if chirality then parentLeftF else parentRightF
        let parentOuterF := if chirality then parentRightF else parentLeftF
        let grandOuterF := if chirality then grandRightF else grandLeftF
        let ancestor := readF h grandParentF
        let subrootF := extreferred h grand
        if readF h parentOuterF = node then
          let h := writeF h subrootF parent
          let h := writeF h parentParentF ancestor
          let c := readF h parentInnerF
          let h := writeF h parentInnerF grand
          let h := writeF h grandParentF parent
          let h := writeF h grandOuterF c
          let h := if c ≠ 0 then writeF h (c, 0) grand else h
          let h := flipColor h parent
          let h := flipColor h grand
          dRRfinish h parent
        else
          let nl := extfetchChir h node chirality
          let nodeParentF2 := nl.1
          let nodeOuterF := nl.2.1
          let nodeInnerF := nl.2.2
          let b := readF h nodeOuterF
          let c := readF h nodeInnerF
          let h := writeF h subrootF node
          let h := writeF h nodeParentF2 ancestor
          let h := writeF h nodeOuterF parent
          let h := writeF h parentParentF node
          let h := writeF h nodeInnerF grand
          let h := writeF h grandParentF node
          let h := writeF h parentInnerF b
          let h := if b ≠ 0 then writeF h (b, 0) parent else h
          let h := writeF h grandOuterF c
          let h := if c ≠ 0 then writeF h (c, 0) grand else h
          let h := flipColor h node
          let h := flipColor h grand
          dRRfinish h node
    else dRRfinish h node

/-- `rbtreeNodeBase::doubleBlackResolve`, with explicit fuel for the loop.
The red-sibling pre-step re-derives the sibling in place before the four
terminal/propagating cases, exactly as the source does. -/
def doubleBlackResolve : Nat → Heap → Ptr → Heap
  | 0, h, _ => h
  | fuel + 1, h, node =>
    if isRoot h node then h
    else
      let nodeParentF : Field := (node, 0)
      let parent := readF h nodeParentF
      let pl := extfetch3 h parent
      let parentParentF := pl.1
      let parentLeftF := pl.2.1
      let parentRightF := pl.2.2
      let ancestor := readF h parentParentF
      let subrootF := extreferred h parent
      let chirality := readF h parentRightF = node
      let parentInnerF := if chirality then parentLeftF else parentRightF
      let sibling0 := readF h parentInnerF
      let sl0 := extfetchChir h sibling0 (!chirality)
      let st :=
        if red h sibling0 then
          let c := readF h sl0.2.2
          let h := writeF h parentInnerF c
          let h := writeF h (c, 0) parent
          let h := writeF h sl0.2.2 parent
          let h := writeF h parentParentF sibling0
          let h := writeF h subrootF sibling0
          let h := writeF h sl0.1 ancestor
          let h := flipColor h parent
          let h := flipColor h sibling0
          (h, c, extfetchChir h c (!chirality))
        else (h, sibling0, sl0)
      let h := st.1
      let sibling := st.2.1
      let siblingParentF := st.2.2.1
      let siblingOuterF := st.2.2.2.1
      let siblingInnerF := st.2.2.2.2
      if red h (readF h siblingOuterF) then
        let c := readF h siblingInnerF
        let h := writeF h parentInnerF c
        let h := if c ≠ 0 then writeF h (c, 0) parent else h
        let h := writeF h siblingInnerF parent
        let h := writeF h parentParentF sibling
        let h := writeF h subrootF sibling
        let h := writeF h siblingParentF ancestor
        let h := swapColor h sibling parent
        let h := flipColor h parent
        let h := flipColor h (readF h siblingOuterF)
        h
      else if red h (readF h siblingInnerF) then
        let inner := readF h siblingInnerF
        let il := extfetchChir h inner (!chirality)
        let innerParentF := il.1
        let innerOuterF := il.2.1
        let innerInnerF := il.2.2
        let c := readF h innerInnerF
        let d := readF h innerOuterF
        let h := writeF h parentInnerF c
        let h := if c ≠ 0 then writeF h (c, 0) parent else h
        let h := writeF h siblingInnerF d
        let h := if d ≠ 0 then writeF h (d, 0) sibling else h
        let h := writeF h innerInnerF parent
        let h := writeF h parentParentF inner
        let h := writeF h innerOuterF sibling
        let h := writeF h siblingParentF inner
        let h := writeF h subrootF inner
        let h := writeF h innerParentF ancestor
        let h := swapColor h inner parent
        let h := flipColor h parent
        h
      else if red h parent then
        swapColor h sibling parent
      else
        doubleBlackResolve fuel (flipColor h sibling) parent

/-! ## Insertion (`rbtreeNodeBase::insert`) -/

/-- `rbtreeNodeBase::insert(target, relation)` invoked on the node at
address `this`.  `relation = 0` folds the node into `target`'s duplicate
group (the `mulext` sub-branch reads the queue front through the field
`&(type.mulext.front)` of `this` itself, exactly as the source does);
otherwise the node is attached as a red `Single` child and a double-red
resolve runs when `target` is red. -/
def insert (fuel : Nat) (h : Heap) (this target : Ptr) (relation : Int) : Heap :=
  if relation = 0 then
    if typeOf h target = rbfSingle then
      let h := setFlags h this (rbfMulint ||| rbfMulintFrontBack)
      let h := writeF h (this, 1) ((h target).s1)
      let h := writeF h (this, 2) ((h target).s2)
      let h := writeF h (this, 0) target
      let h := setFlags h target ((((h target).flags ||| rbfTypeMask) ^^^ rbfTypeMask) ||| rbfMulext)
      let h := writeF h (target, 1) this
      let h := writeF h (target, 2) this
      h
    else
      let frontF : Field := (this, 2)
      let h := setFlags h this (rbfMulint ||| rbfMulintFront)
      let h := writeF h (this, 0) target
      let f1 := readF h frontF
      let h := setFlags h f1 ((h f1).flags ^^^ rbfMulintFront)
      let f2 := readF h frontF
      let h := writeF h (f2, 0) 0
      let f3 := readF h frontF
      let h := writeF h (this, 1) ((h f3).s1)
      let f4 := readF h frontF
      let h := writeF h (this, 2) f4
      let f5 := readF h frontF
      let h := writeF h (f5, 1) this
      let h := writeF h frontF this
      h
  else
    let h :=
      if relation < 0 then writeF h (extleftF h target) this
      else writeF h (extrightF h target) this
    let h := writeF h (this, 0) target
    let h := setFlags h this (rbfSingle ||| rbfColorRed)
    if red h target then doubleRedResolve fuel h this else h

/-! ## Structural transfer (`extswap`, `nullswap`) -/

/-- `rbtreeNodeBase::extswap`.  The two extra addresses `ps`/`pr` model the
stack-allocated `pseudoTreeSentinel`/`pseudoTreeRoot` pair used by the
adjacent-nodes branch; the caller must supply fresh addresses, matching the
freshness of stack storage.  The assignments through the `nilParent` dummy
are modelled as the no-ops they are. -/
def extswap : Nat → Heap → Ptr → Ptr → Ptr → Ptr → Heap
  | 0, h, _, _, _, _ => h
  | fuel + 1, h, a, b, ps, pr =>
    let afl := extfetch3 h a
    let aParent := readF h afl.1
    let aLeft := readF h afl.2.1
    let aRight := readF h afl.2.2
    let bfl := extfetch3 h b
    let bParent := readF h bfl.1
    let bLeft := readF h bfl.2.1
    let bRight := readF h bfl.2.2
    if bParent = a ∨ aParent = b then
      let h := updNode h ps zeroNode
      let h := updNode h pr zeroNode
      let h := writeF h (pr, 0) ps
      let h := writeF h (ps, 1) pr
      let h := extswap fuel h pr b ps pr
      let h := extswap fuel h a b ps pr
      extswap fuel h pr a ps pr
    else
      let aParentReferF := extreferred h a
      let bParentReferF := extreferred h b
      let h := writeF h afl.1 bParent
      let h := writeF h bfl.1 aParent
      let h := writeF h afl.2.1 bLeft
      let h := writeF h bfl.2.1 aLeft
      let h := writeF h afl.2.2 bRight
      let h := writeF h bfl.2.2 aRight
      let h := if aRight ≠ 0 then writeF h (aRight, 0) b else h
      let h := if aLeft ≠ 0 then writeF h (aLeft, 0) b else h
      let h := writeF h aParentReferF b
      let h := if bRight ≠ 0 then writeF h (bRight, 0) a else h
      let h := if bLeft ≠ 0 then writeF h (bLeft, 0) a else h
      let h := writeF h bParentReferF a
      h

/-- `rbtreeNodeBase::nullswap(null)`: move the identity of `this` into the
orphan at `null`, then reset `this`.  Each statement of the source is
replicated in order, including the `mulext` case's update of the back
member's `next` neighbour through `back->type.mulint.mulext`. -/
def nullswap (h : Heap) (this nullId : Ptr) : Heap :=
  if typeOf h this = rbfSingle then
    let h := setFlags h nullId ((h this).flags)
    let h := writeF h (nullId, 0) ((h this).s0)
    let h := writeF h (nullId, 1) ((h this).s1)
    let h := writeF h (nullId, 2) ((h this).s2)
    let h := if (h nullId).s1 ≠ 0 then writeF h ((h nullId).s1, 0) nullId else h
    let h := if (h nullId).s2 ≠ 0 then writeF h ((h nullId).s2, 0) nullId else h
    let h := writeF h (extreferred h this) nullId
    updNode h this zeroNode
  else if typeOf h this = rbfMulint then
    let h := setFlags h nullId ((h this).flags)
    let h := writeF h (nullId, 0) ((h this).s0)
    let h := writeF h (nullId, 1) ((h this).s1)
    let h := writeF h (nullId, 2) ((h this).s2)
    let h :=
      if (h this).flags &&& rbfMulintFront ≠ 0 then
        writeF h ((h this).s0, 2) nullId
      else
        writeF h ((h this).s1, 2) nullId
    let h :=
      if (h this).flags &&& rbfMulintBack ≠ 0 then
        writeF h ((h this).s0, 1) nullId
      else
        writeF h ((h this).s2, 1) nullId
    updNode h this zeroNode
  else if typeOf h this = rbfMulext then
    let h := setFlags h nullId ((h this).flags)
    let h := writeF h (nullId, 0) ((h this).s0)
    let h := writeF h (nullId, 2) ((h this).s2)
    let h := writeF h (nullId, 1) ((h this).s1)
    let h := writeF h ((h nullId).s2, 0) nullId
    let h :=
      if (h ((h nullId).s2)).s1 ≠ 0 then
        writeF h ((h ((h nullId).s2)).s1, 0) nullId
      else h
    let h := writeF h ((h nullId).s1, 0) nullId
    let h :=
      if (h ((h nullId).s1)).s2 ≠ 0 then
        writeF h ((h ((h nullId).s1)).s0, 0) nullId
      else h
    let h := writeF h (extreferred h this) nullId
    updNode h this zeroNode
  else h

/-! ## Bulk teardown (`sentinelPrune`) -/

/-- The inner `for` loop of `sentinelPrune`: walk the duplicate queue along
the saved `next` references, clearing each member back to orphan. -/
def pruneChain : Nat → Heap → Ptr → Heap
  | 0, h, _ => h
  | fuel + 1, h, m =>
    if m = 0 then h
    else
      let nxt := (h m).s2
      let h := writeF h (m, 1) 0
      let h := writeF h (m, 2) 0
      let h := setFlags h m rbfOrphan
      pruneChain fuel h nxt

/-- The flattening prologue of a `sentinelPrune` iteration: convert the
`mulext` position at `node` into a `Single` node, splicing its queue into a
plain left/right pair and resetting every member. -/
def flattenMulext (fuel : Nat) (h : Heap) (node : Ptr) : Heap :=
  let left := (h ((h node).s2)).s1
  let right := (h ((h node).s1)).s2
  let h := writeF h ((h node).s2, 1) 0
  let h := writeF h ((h node).s1, 2) 0
  let h := writeF h ((h node).s2, 0) 0
  let h := writeF h ((h node).s1, 0) 0
  let h := pruneChain fuel h ((h node).s2)
  let h := setFlags h node rbfSingle
  let h := writeF h (node, 1) left
  let h := writeF h (node, 2) right
  h

/-- The walking epilogue of a `sentinelPrune` iteration: descend through
the left child if present (clearing the link), else the right child, else
reset the node to orphan and ascend to the stored parent.  `recur` is the
continuation of the loop. -/
def pruneStepAux (recur : Heap → Ptr → Heap) (h : Heap) (node : Ptr) : Heap :=
  if (h node).s1 ≠ 0 then recur (writeF h (node, 1) 0) ((h node).s1)
  else if (h node).s2 ≠ 0 then recur (writeF h (node, 2) 0) ((h node).s2)
  else
    let h := setFlags h node rbfOrphan
    let p := (h node).s0
    recur (writeF h (node, 0) 0) p

/-- The main `while` loop of `sentinelPrune`: flatten a `mulext` position
into a `Single`, descend through left then right children (clearing each
link as it is consumed), and ascend through parent references. -/
def pruneLoop : Nat → Heap → Ptr → Heap
  | 0, h, _ => h
  | fuel + 1, h, node =>
    if typeOf h node = rbfOrphan then h
    else if typeOf h node = rbfMulext then
      pruneStepAux (pruneLoop fuel) (flattenMulext fuel h node) node
    else pruneStepAux (pruneLoop fuel) h node

/-- `rbtreeNodeBase::sentinelPrune(root)`: clear the sentinel's root handle
and destroy everything that was reachable from it. -/
def sentinelPrune (fuel : Nat) (h : Heap) (root : Ptr) : Heap :=
  let node := (h root).s1
  if node = 0 then h
  else pruneLoop fuel (writeF h (root, 1) 0) node

/-! ## Erase (`rbtreeNodeBase::erase`) -/

/-- The `while` loop of the two-children case: find the leftmost node of
the subtree rooted at `n`. -/
def leftmostLoop : Nat → Heap → Ptr → Ptr
  | 0, _, n => n
  | fuel + 1, h, n =>
    let l := readF h (extleftF h n)
    if l ≠ 0 then leftmostLoop fuel h l else n

/-- `rbtreeNodeBase::erase()` on the node at `this`.  `ps`/`pr` are passed
through to `extswap` for its stack-allocated pseudo tree.  The `mulint` and
`mulext` branches rebuild flags from `this`'s own `flags` word, and the
`mulext` branch tests `back->flags & rbfMulintFrontBack != 0`, exactly as
the source does. -/
def erase (fuel : Nat) (ps pr : Ptr) (h : Heap) (this : Ptr) : Heap :=
  if typeOf h this = rbfMulint then
    let h :=
      if (h this).flags &&& rbfMulintFrontBack = rbfMulintFrontBack then
        let mulext := (h this).s0
        let h := setFlags h mulext ((((h this).flags ||| rbfTypeMask) ^^^ rbfTypeMask) ||| rbfSingle)
        let h := writeF h (mulext, 1) ((h this).s1)
        let h := writeF h (mulext, 2) ((h this).s2)
        h
      else
        let h :=
          if (h this).flags &&& rbfMulintFront ≠ 0 then
            let h := writeF h ((h this).s0, 2) ((h this).s2)
            let h := writeF h ((h this).s2, 0) ((h this).s0)
            let h := setFlags h ((h this).s2) ((h ((h this).s2)).flags ||| rbfMulintFront)
            h
          else h
        let h :=
          if (h this).flags &&& rbfMulintBack ≠ 0 then
            let h := writeF h ((h this).s0, 1) ((h this).s1)
            let h := writeF h ((h this).s1, 0) ((h this).s0)
            let h := setFlags h ((h this).s1) ((h ((h this).s1)).flags ||| rbfMulintBack)
            h
          else h
        let h := writeF h ((h this).s2, 1) ((h this).s1)
        let h := writeF h ((h this).s1, 2) ((h this).s2)
        h
    updNode h this zeroNode
  else if typeOf h this = rbfMulext then
    let back := (h this).s1
    let fl := extfetch3 h this
    let h := writeF h (extreferred h this) back
    let h :=
      if readF h fl.2.1 ≠ 0 then writeF h (readF h fl.2.1, 0) back else h
    let h :=
      if readF h fl.2.2 ≠ 0 then writeF h (readF h fl.2.2, 0) back else h
    let h :=
      if (h back).flags &&& rbfMulintFrontBack ≠ 0 then
        let h := setFlags h back ((((h this).flags ||| rbfTypeMask) ^^^ rbfTypeMask) ||| rbfSingle)
        let h := writeF h (back, 0) ((h this).s0)
        h
      else
        let newBack := (h back).s1
        let h := writeF h (newBack, 2) ((h back).s2)
        let h := writeF h (newBack, 0) back
        let h := setFlags h newBack ((h newBack).flags ||| rbfMulintBack)
        let h := setFlags h back ((((h this).flags ||| rbfTypeMask) ^^^ rbfTypeMask) ||| rbfMulext)
        let h := writeF h (back, 2) ((h this).s2)
        let h := writeF h (back, 1) newBack
        let h := writeF h (back, 0) ((h this).s0)
        h
    updNode h this zeroNode
  else if typeOf h this = rbfSingle then
    let fl := extfetch3 h this
    let h :=
      if readF h fl.2.1 ≠ 0 ∧ readF h fl.2.2 ≠ 0 then
        let leftmostNode := leftmostLoop fuel h (readF h fl.2.2)
        let h := extswap fuel h this leftmostNode ps pr
        let h := swapColor h this leftmostNode
        h
      else h
    let fl := extfetch3 h this
    let h :=
      if readF h fl.2.1 ≠ 0 ∨ readF h fl.2.2 ≠ 0 then
        let referredF := extreferred h this
        let child := if readF h fl.2.1 ≠ 0 then readF h fl.2.1 else readF h fl.2.2
        let h := writeF h (child, 0) (readF h fl.1)
        let h := writeF h referredF child
        let h := flipColor h child
        h
      else
        let h := if black h this then doubleBlackResolve fuel h this else h
        writeF h (extreferred h this) 0
    updNode h this zeroNode
  else h

/-! ## Red-black validity checker

The spec's invariant over reachable `Single`/`GroupHead` positions: the
root is black (or the tree is empty), no red position has a red parent, and
every root-to-empty-child path crosses the same number of black positions.
Children are resolved through the same tag-aware accessors as the code
(`extleft`/`extright`), and the color of a position is its color bit. -/

/-- The left child pointer of the position at `p` (tag-aware). -/
def childL (h : Heap) (p : Ptr) : Ptr := readF h (extleftF h p)

/-- The right child pointer of the position at `p` (tag-aware). -/
def childR (h : Heap) (p : Ptr) : Ptr := readF h (extrightF h p)

/-- Black-height of the subtree at `p`: `some n` when every path to an
empty child crosses the same number `n` of black positions (counting the
empty child itself as one), `none` when the heights disagree. -/
def bhChk : Nat → Heap → Ptr → Option Nat
  | 0, _, _ => none
  | fuel + 1, h, p =>
    if p = 0 then some 1
    else
      match bhChk fuel h (childL h p), bhChk fuel h (childR h p) with
      | some a, some b =>
        if a = b then some (a + (if red h p then 0 else 1)) else none
      | _, _ => none

/-- No red position of the subtree at `p` has a red child. -/
def redOkChk : Nat → Heap → Ptr → Bool
  | 0, _, _ => false
  | fuel + 1, h, p =>
    if p = 0 then true
    else
      if red h p ∧ (red h (childL h p) ∨ red h (childR h p)) then false
      else redOkChk fuel h (childL h p) && redOkChk fuel h (childR h p)

/-- Every node of the subtree at `p` is an external (`Single`/`mulext`)
position. -/
def extOkChk : Nat → Heap → Ptr → Bool
  | 0, _, _ => false
  | fuel + 1, h, p =>
    if p = 0 then true
    else
      (typeOf h p = rbfSingle || typeOf h p = rbfMulext) &&
      extOkChk fuel h (childL h p) && extOkChk fuel h (childR h p)

/-- The spec's red-black invariant for the tree hanging off the sentinel at
`sent`: all reachable positions are external, the root is black or absent,
no red-red violation, and the black-heights agree. -/
def rbOk (fuel : Nat) (h : Heap) (sent : Ptr) : Bool :=
  let r := (h sent).s1
  (r = 0 || !red h r) && extOkChk fuel h r && redOkChk fuel h r &&
    (bhChk fuel h r).isSome

/-! ## Concrete heaps for the claim scenarios -/

/-- Build a heap from an association list; unlisted addresses hold the
all-zero (orphan) node. -/
def mkHeap (l : List (Nat × Node)) : Heap := fun n => ((l.lookup n).getD zeroNode)

/-! ### C1: invariant preservation under an insert/erase sequence

Sentinel at address 1.  The sequence inserts key 10 at the sentinel
(address 2), key 15 as its right child (address 3), a duplicate of 15
(address 6, relation 0), and then erases the duplicate.  Every step is
consistent with BST search and erases a node currently in the tree. -/

def c1Heap0 : Heap := fun _ => zeroNode
def c1Heap1 : Heap := insert 8 c1Heap0 2 1 (-1)
def c1Heap2 : Heap := insert 8 c1Heap1 3 2 1
def c1Heap3 : Heap := insert 8 c1Heap2 6 3 0
def c1Heap4 : Heap := erase 8 90 91 c1Heap3 6

/-- C1: after the sequence insert 10, insert 15, insert a duplicate of 15,
erase the duplicate — all inserts BST-consistent and the erased node in the
tree — the red-black invariants do *not* hold: the tree was valid before
the erase, but the erase rebuilds the surviving 15-position's flags from
the *member's* flag word (`erase`'s `rbfMulint` branch uses `flags` of the
erased node), forcing the formerly red position black (flags 13) and
breaking black-height equality.  This refutes the claim. -/
theorem c1_insert_erase_sequence_breaks_rb_invariant :
    rbOk 10 c1Heap3 1 = true ∧ rbOk 10 c1Heap4 1 = false ∧
    c1Heap3 3 = ⟨2, 2, 6, 6⟩ ∧ c1Heap4 3 = ⟨13, 2, 0, 0⟩ ∧
    c1Heap4 6 = zeroNode := by decide

/-! ### C2: duplicate insertion onto an existing GroupHead

Sentinel 1; position 2 is a `GroupHead` (black) whose single-member queue
is {3}; node 5 is a fresh orphan inserted with `insert(2, 0)`. -/

def c2Heap : Heap := mkHeap
  [(1, ⟨0, 0, 2, 0⟩),
   (2, ⟨6, 1, 3, 3⟩),
   (3, ⟨15, 2, 0, 0⟩)]
def c2Run : Heap := insert 8 c2Heap 5 2 0

/-- C2: inserting onto a node that is already a `GroupHead` does *not*
splice the new node in as queue front.  The source reads the queue front
through `&(type.mulext.front)` of the *new* node (null), so: the target's
front/back pointers are unchanged (still member 3), the old front keeps its
front flag (flags 15), the new node's `next` ends up pointing at itself,
and the null address is read and written (flags at address 0 flip).  This
refutes the claim. -/
theorem c2_dup_insert_on_grouphead_corrupts_queue :
    c2Run 2 = c2Heap 2 ∧ c2Run 3 = c2Heap 3 ∧
    c2Run 5 = ⟨7, 2, 0, 5⟩ ∧ c2Run 0 = ⟨4, 0, 5, 0⟩ ∧
    c2Run 0 ≠ c2Heap 0 := by decide

/-! ### C3: the black-sibling / red-outer-child case of doubleBlackResolve

Sentinel 1; parent P = 2 (black) with double-black node N = 3 (left, black
leaf) and sibling S = 4 (black) whose outer (right) child 5 is red.  This
is a valid deletion configuration (it arises when erasing the black leaf 3). -/

def c3Heap : Heap := mkHeap
  [(1, ⟨0, 0, 2, 0⟩),
   (2, ⟨5, 1, 3, 4⟩),
   (3, ⟨5, 2, 0, 0⟩),
   (4, ⟨5, 2, 0, 5⟩),
   (5, ⟨1, 4, 0, 0⟩)]
def c3Run : Heap := doubleBlackResolve 9 c3Heap 3
def c3Erase : Heap := erase 9 90 91 c3Heap 3

/-- C3: in the black-sibling/red-outer case the code performs the claimed
rotation (sibling 4 promoted to the parent's position, root handle updated)
and blackens the outer child, but after `swapColor` it additionally runs
`parent->flipColor()`, leaving the parent *red* (flags 1) instead of the
sibling's former color black; consequently erasing the black leaf in this
configuration leaves a tree violating the red-black invariant.  This
refutes the claim's color bookkeeping. -/
theorem c3_outer_red_case_leaves_parent_red :
    c3Run 1 = ⟨0, 0, 4, 0⟩ ∧ c3Run 4 = ⟨5, 1, 2, 5⟩ ∧
    c3Run 2 = ⟨1, 4, 3, 0⟩ ∧ c3Run 5 = ⟨5, 4, 0, 0⟩ ∧
    red c3Run 2 = true ∧ rbOk 10 c3Erase 1 = false := by decide

/-! ### C4: relocate (nullswap) of a GroupHead with a right child

Sentinel 1; position 2 is a black `GroupHead` with single-member queue {3};
the queue-back member's `next` (the position's right-child slot) holds the
red `Single` node 4.  Address 9 is the orphan placeholder. -/

def c4Heap : Heap := mkHeap
  [(1, ⟨0, 0, 2, 0⟩),
   (2, ⟨6, 1, 3, 3⟩),
   (3, ⟨15, 2, 0, 4⟩),
   (4, ⟨1, 2, 0, 0⟩)]
def c4Run : Heap := nullswap c4Heap 2 9

/-- C4: relocating the GroupHead at 2 into the placeholder 9 copies the
state and resets 2, but because the source updates the right neighbour
through `back->type.mulint.mulext` (just redirected to the placeholder)
instead of `back->type.mulint.next`, the placeholder's parent field ends up
pointing at the placeholder itself and the right child's parent field still
points at the (now orphaned) old node.  This refutes the claim for exactly
the configuration it singles out. -/
theorem c4_nullswap_grouphead_right_child_dangling :
    c4Run 9 = ⟨6, 9, 3, 3⟩ ∧ c4Run 4 = ⟨1, 2, 0, 0⟩ ∧
    (c4Run 9).s0 ≠ 1 ∧ (c4Run 4).s0 ≠ 9 ∧
    c4Run 2 = zeroNode ∧ c4Run 1 = ⟨0, 0, 9, 0⟩ := by decide

/-! ### C5: erase of a GroupHead with a two-member group

Sentinel 1; position 2 is a black `GroupHead`, queue front-to-back is
4 (front) then 3 (back). -/

def c5Heap : Heap := mkHeap
  [(1, ⟨0, 0, 2, 0⟩),
   (2, ⟨6, 1, 3, 4⟩),
   (4, ⟨7, 2, 0, 3⟩),
   (3, ⟨11, 2, 4, 0⟩)]
def c5Run : Heap := erase 8 90 91 c5Heap 2

/-- C5: erasing a GroupHead whose group still has two members does *not*
produce a new GroupHead.  The branch test `back->flags &
rbfMulintFrontBack != 0` is satisfied by every back member (it always has
the back bit), so the sole-member branch runs: the back member 3 becomes a
`Single` (flags 5) whose left-child slot holds the surviving queue member
4, which itself remains a dangling `GroupMember` (flags 7) referencing the
erased node.  This refutes the claim for groups with at least two members. -/
theorem c5_grouphead_erase_two_members_wrong_branch :
    c5Run 3 = ⟨5, 1, 4, 0⟩ ∧ typeOf c5Run 3 = rbfSingle ∧
    c5Run 4 = ⟨7, 2, 0, 3⟩ ∧ c5Run 2 = zeroNode := by decide

/-! ### C6: insert/erase round trip on a valid tree

Sentinel 1; valid tree: black root 2 with red right child 3.  The fresh
orphan 6 is inserted as a duplicate at 3 (relation 0, consistent with its
key) and then immediately erased. -/

def c6Heap : Heap := mkHeap
  [(1, ⟨0, 0, 2, 0⟩),
   (2, ⟨5, 1, 0, 3⟩),
   (3, ⟨1, 2, 0, 0⟩)]
def c6Ins : Heap := insert 8 c6Heap 6 3 0
def c6Run : Heap := erase 8 90 91 c6Ins 6

/-- C6: inserting the fresh node 6 at the red position 3 and erasing it
again returns 6 to orphan, but does *not* leave the red-black invariants
unchanged: the demotion path rebuilds position 3's flags from the erased
member's flag word, so the red position turns black (flags 13) and the
black-heights of the two root-to-empty paths disagree.  This refutes the
claim. -/
theorem c6_round_trip_breaks_rb_invariant :
    rbOk 10 c6Heap 1 = true ∧ c6Run 6 = zeroNode ∧
    c6Run 3 = ⟨13, 2, 0, 0⟩ ∧ rbOk 10 c6Run 1 = false := by decide

/-! ### C8: extswap of a parent/child pair, invoked on the child

Sentinel 1; black root 2 whose right child is the red leaf 3.  Addresses
10/11 are the fresh stack slots for the pseudo tree. -/

def c8Heap : Heap := mkHeap
  [(1, ⟨0, 0, 2, 0⟩),
   (2, ⟨5, 1, 0, 3⟩),
   (3, ⟨1, 2, 0, 0⟩)]
def c8Run : Heap := extswap 4 c8Heap 3 2 10 11
def c8RunRev : Heap := extswap 4 c8Heap 2 3 10 11

/-- C8: swapping the adjacent pair (3, 2) with the call made on the child 3
corrupts the tree instead of exchanging the positions: the pseudo tree root
keeps `Orphan` flags, so `extreferred` resolves it like a sentinel and the
staged exchange writes through the wrong slot — node 3 finishes with its
parent and right-child fields pointing at itself.  (The same call made on
the parent, `c8RunRev`, produces the claimed clean exchange, exhibiting the
asymmetry.)  This refutes the claim. -/
theorem c8_extswap_child_first_adjacent_corrupts :
    c8Run 3 = ⟨1, 3, 2, 3⟩ ∧ (c8Run 3).s0 = 3 ∧ (c8Run 3).s2 = 3 ∧
    c8RunRev 3 = ⟨1, 1, 0, 2⟩ ∧ c8RunRev 2 = ⟨5, 3, 0, 0⟩ ∧
    c8RunRev 1 = ⟨0, 0, 3, 0⟩ := by decide

/-! ### C9: frame property of duplicate insertion

Same shape as the C2 scenario: position 2 is a GroupHead with queue {3},
and node 5 is inserted with relation 0. -/

def c9Heap : Heap := mkHeap
  [(1, ⟨0, 0, 2, 0⟩),
   (2, ⟨6, 1, 3, 3⟩),
   (3, ⟨15, 2, 0, 0⟩)]
def c9Run : Heap := insert 8 c9Heap 5 2 0

/-- C9: for a duplicate insertion onto a GroupHead the claim's frame
property fails: memory outside the target's duplicate group is modified —
the null address 0 is written through the new node's uninitialised front
field (its flag word flips from 0 to 4 and its slot 1 receives the new
node), while the target's own group representation is *not* updated (front
still 3).  This refutes the claim; for a `Single` target the branch indeed
performs no rebalancing. -/
theorem c9_dup_insert_modifies_memory_outside_group :
    c9Run 0 ≠ c9Heap 0 ∧ c9Run 0 = ⟨4, 0, 5, 0⟩ ∧
    c9Run 2 = c9Heap 2 ∧ c9Run 3 = c9Heap 3 := by decide

/-! ### C10: erase of an orphan node is a no-op -/

/-- C10: `erase` invoked on a node whose tag is `Orphan` returns the heap
unchanged — the switch falls into the `default: return;` branch before the
final orphan reset, touching nothing. -/
theorem c10_erase_orphan_noop (fuel ps pr : Nat) (h : Heap) (n : Ptr)
    (h0 : typeOf h n = rbfOrphan) : erase fuel ps pr h n = h := by
  unfold erase
  rw [h0]
  norm_num [rbfOrphan, rbfMulint, rbfMulext, rbfSingle]

def c10Heap : Heap := mkHeap
  [(1, ⟨0, 0, 2, 0⟩),
   (2, ⟨5, 1, 0, 0⟩),
   (4, ⟨0, 0, 0, 0⟩)]

/-- Witness for C10 at a concrete heap and node. -/
theorem c10_erase_orphan_noop_witness :
    typeOf c10Heap 4 = rbfOrphan ∧ erase 8 90 91 c10Heap 4 = c10Heap :=
  ⟨by decide, c10_erase_orphan_noop 8 90 91 c10Heap 4 (by decide)⟩

/-! ## Well-formed trees for the teardown proof (C7)

A tree shape records, for every position, its address, the addresses of its
duplicate-queue members (front to back; empty for a `Single` position) and
its two subtrees.  `repT` checks that a heap faithfully stores such a
shape: `Single`/`mulext` tags, parent back-references, the child slots
living inside the end members for a group, and the queue chain with front,
back and middle flags as maintained by the tree operations (middle members
carry a null `mulext` reference). -/

/-- Shape of a (sub)tree: empty, or a position with its duplicate-queue
member list and two subtrees. -/
inductive RTree where
  | nil : RTree
  | node (id : Ptr) (grp : List Ptr) (l r : RTree) : RTree
deriving DecidableEq, Repr

/-- The pointer stored in the parent's child slot for this shape. -/
def rootPtr : RTree → Ptr
  | .nil => 0
  | .node id _ _ _ => id

/-- All addresses of a shape: positions and queue members. -/
def idsOf : RTree → List Ptr
  | .nil => []
  | .node id grp l r => id :: (grp ++ (idsOf l ++ idsOf r))

/-- Last element of `a :: l`. -/
def lastD (a : Ptr) : List Ptr → Ptr
  | [] => a
  | b :: t => lastD b t

/-- The queue chain of a duplicate group: `prev` is the value of the first
member's `previous` slot (the position's left child for the front), `r` is
the value stored in the last member's `next` slot (the position's right
child), `head` the owning `mulext` node.  Flags are exactly those
maintained by the operations: front `7`, back `11`, sole member `15`,
middles `3` with a null `mulext` reference. -/
def memsRep (h : Heap) (head : Ptr) : Bool → Ptr → List Ptr → Ptr → Bool
  | _, _, [], _ => false
  | isFront, prev, [g], r =>
    (h g).flags = (if isFront then 15 else 11) && (h g).s0 = head &&
    (h g).s1 = prev && (h g).s2 = r
  | isFront, prev, g :: g2 :: gs, r =>
    (h g).flags = (if isFront then 7 else 3) &&
    (h g).s0 = (if isFront then head else 0) &&
    (h g).s1 = prev && (h g).s2 = g2 &&
    memsRep h head false g (g2 :: gs) r

/-- The heap stores the shape `t` with parent pointer `p` at its root. -/
def repT (h : Heap) (p : Ptr) : RTree → Bool
  | .nil => true
  | .node id grp l r =>
    (h id).s0 = p &&
    (match grp with
     | [] =>
       typeOf h id = rbfSingle && (h id).s1 = rootPtr l && (h id).s2 = rootPtr r
     | g :: gs =>
       typeOf h id = rbfMulext && (h id).s2 = g && (h id).s1 = lastD g gs &&
       memsRep h id true (rootPtr l) (g :: gs) (rootPtr r)) &&
    repT h id l && repT h id r

/-- Loop iterations needed to consume a shape, plus the queue lengths
(which bound the fuel handed to the inner chain walk). -/
def cost : RTree → Nat
  | .nil => 0
  | .node _ grp l r =>
    1 + grp.length + (if l = .nil then 0 else 1) + (if r = .nil then 0 else 1) +
      cost l + cost r

/-- Total queue length of a shape: the fuel surplus left by the loop. -/
def grpExtra : RTree → Nat
  | .nil => 0
  | .node _ grp l r => grp.length + grpExtra l + grpExtra r

/-- Reset every listed address to the all-zero orphan node. -/
def resetIds (is : List Ptr) (h : Heap) : Heap :=
  fun x => if x ∈ is then zeroNode else h x

/-! ### Pointwise heap lemmas -/

theorem writeF_apply (h : Heap) (f : Field) (v : Ptr) (m : Ptr) :
    writeF h f v m = if m = f.1 then setSlot (h m) f.2 v else h m := rfl

theorem setFlags_apply (h : Heap) (n : Ptr) (fl : Nat) (m : Ptr) :
    setFlags h n fl m = if m = n then ⟨fl, (h m).s0, (h m).s1, (h m).s2⟩ else h m := rfl

theorem updNode_apply (h : Heap) (n : Ptr) (nd : Node) (m : Ptr) :
    updNode h n nd m = if m = n then nd else h m := rfl

theorem resetIds_apply (is : List Ptr) (h : Heap) (m : Ptr) :
    resetIds is h m = if m ∈ is then zeroNode else h m := rfl

theorem writeF_ne (h : Heap) (f : Field) (v : Ptr) (m : Ptr) (hm : m ≠ f.1) :
    writeF h f v m = h m := by
  simp [writeF_apply, hm]

theorem setFlags_ne (h : Heap) (n : Ptr) (fl : Nat) (m : Ptr) (hm : m ≠ n) :
    setFlags h n fl m = h m := by
  simp [setFlags_apply, hm]

theorem resetIds_notMem (is : List Ptr) (h : Heap) (m : Ptr) (hm : m ∉ is) :
    resetIds is h m = h m := by
  simp [resetIds_apply, hm]

/-! ### Frame lemmas: `memsRep` and `repT` only read the listed cells -/

theorem memsRep_congr (head : Ptr) (gs : List Ptr) :
    ∀ (isFront : Bool) (prev r : Ptr) (h h' : Heap),
      (∀ x ∈ gs, h' x = h x) →
      memsRep h' head isFront prev gs r = memsRep h head isFront prev gs r := by
  induction gs with
  | nil => intro _ _ _ _ _ _; rfl
  | cons g t ih =>
    intro isFront prev r h h' hagree
    cases t with
    | nil =>
      have hg := hagree g (by simp)
      simp [memsRep, hg]
    | cons g2 t2 =>
      have hg := hagree g (by simp)
      have ht : ∀ x ∈ g2 :: t2, h' x = h x := by
        intro x hx
        exact hagree x (by simp [hx])
      simp [memsRep, hg, ih false g r h h' ht]

theorem repT_congr (t : RTree) :
    ∀ (p : Ptr) (h h' : Heap), (∀ x ∈ idsOf t, h' x = h x) →
      repT h' p t = repT h p t := by
  induction t with
  | nil => intro _ _ _ _; rfl
  | node id grp l r ihl ihr =>
    intro p h h' hagree
    have hid : h' id = h id := hagree id (by simp [idsOf])
    have hl : ∀ x ∈ idsOf l, h' x = h x := by
      intro x hx
      exact hagree x (by simp [idsOf, hx])
    have hr : ∀ x ∈ idsOf r, h' x = h x := by
      intro x hx
      exact hagree x (by simp [idsOf, hx])
    cases grp with
    | nil =>
      simp [repT, typeOf, hid, ihl id h h' hl, ihr id h h' hr]
    | cons g gs =>
      have hg : ∀ x ∈ g :: gs, h' x = h x := by
        intro x hx
        rcases List.mem_cons.1 hx with hx1 | hx2
        · exact hagree x (by simp [idsOf, hx1])
        · exact hagree x (by simp [idsOf, hx2])
      simp [repT, typeOf, hid, ihl id h h' hl, ihr id h h' hr,
        memsRep_congr id (g :: gs) true (rootPtr l) (rootPtr r) h h' hg]

/-! ### The queue chain walk -/

/-- Successive `next` links: each listed member's slot 2 holds the next
member, the last member's slot 2 is null. -/
def linksTo (h : Heap) : List Ptr → Bool
  | [] => true
  | [m] => (h m).s2 = 0
  | m :: m2 :: rest => (h m).s2 = m2 && linksTo h (m2 :: rest)

theorem linksTo_congr (ms : List Ptr) :
    ∀ (h h' : Heap), (∀ x ∈ ms, h' x = h x) → linksTo h' ms = linksTo h ms := by
  induction ms with
  | nil => intro _ _ _; rfl
  | cons m t ih =>
    intro h h' hagree
    cases t with
    | nil => simp [linksTo, hagree m (by simp)]
    | cons m2 t2 =>
      have ht : ∀ x ∈ m2 :: t2, h' x = h x := fun x hx => hagree x (by simp [hx])
      simp [linksTo, hagree m (by simp), ih h h' ht]

theorem pruneChain_zero (fuel : Nat) (h : Heap) : pruneChain fuel h 0 = h := by
  cases fuel with
  | zero => rfl
  | succ f => simp [pruneChain]

/-- The heap after one chain-walk step at member `m`. -/
def chainStep (h : Heap) (m : Ptr) : Heap :=
  setFlags (writeF (writeF h (m, 1) 0) (m, 2) 0) m rbfOrphan

theorem chainStep_at (h : Heap) (m : Ptr) :
    chainStep h m m = ⟨0, (h m).s0, 0, 0⟩ := by
  simp [chainStep, setFlags_apply, writeF_apply, setSlot, rbfOrphan]

theorem chainStep_ne (h : Heap) (m x : Ptr) (hx : x ≠ m) :
    chainStep h m x = h x := by
  simp [chainStep, setFlags_apply, writeF_apply, hx]

theorem pruneChain_succ (f : Nat) (h : Heap) (m : Ptr) (hm : m ≠ 0) :
    pruneChain (f + 1) h m = pruneChain f (chainStep h m) ((h m).s2) := by
  rw [pruneChain, if_neg hm]
  rfl

/-- Running the chain walk over a null-terminated `next` chain resets the
slots 1 and 2 and the flags of every member, leaving slot 0 alone. -/
theorem pruneChain_spec (ms : List Ptr) :
    ∀ (h : Heap) (fuel : Nat), linksTo h ms = true → ms.Nodup → 0 ∉ ms →
      ms.length ≤ fuel →
      pruneChain fuel h (match ms with | [] => 0 | m :: _ => m) =
        fun x => if x ∈ ms then ⟨0, (h x).s0, 0, 0⟩ else h x := by
  induction ms with
  | nil =>
    intro h fuel _ _ _ _
    funext x
    simp [pruneChain_zero]
  | cons m rest ih =>
    intro h fuel hlink hnd h0 hlen
    have hm0 : m ≠ 0 := fun hc => h0 (by simp [hc.symm])
    obtain ⟨f, rfl⟩ : ∃ f, fuel = f + 1 := ⟨fuel - 1, by simp at hlen; omega⟩
    rw [pruneChain_succ f h m hm0]
    cases rest with
    | nil =>
      have hnxt : (h m).s2 = 0 := by simpa [linksTo] using hlink
      rw [hnxt, pruneChain_zero]
      funext x
      by_cases hx : x = m
      · subst hx
        simp [chainStep_at]
      · simp [chainStep_ne h m x hx, hx]
    | cons m2 t2 =>
      have hlink2 : (h m).s2 = m2 ∧ linksTo h (m2 :: t2) = true := by
        simpa [linksTo] using hlink
      rw [List.nodup_cons] at hnd
      have hmnot : m ∉ m2 :: t2 := hnd.1
      have hlink1 : linksTo (chainStep h m) (m2 :: t2) = true := by
        rw [linksTo_congr (m2 :: t2) h (chainStep h m)
          (fun x hx => chainStep_ne h m x (fun hc => hmnot (hc ▸ hx)))]
        exact hlink2.2
      rw [hlink2.1]
      have := ih (chainStep h m) f hlink1 hnd.2 (by simp at h0 ⊢; tauto)
        (by simp at hlen ⊢; omega)
      rw [this]
      funext x
      by_cases hx2 : x ∈ m2 :: t2
      · have hxm : x ≠ m := fun hc => hmnot (hc ▸ hx2)
        rw [chainStep_ne h m x hxm]
        simp only [List.mem_cons] at hx2 ⊢
        rw [if_pos hx2, if_pos (.inr hx2)]
      · by_cases hxm : x = m
        · subst hxm
          rw [if_neg hx2, chainStep_at]
          simp [hx2]
        · rw [if_neg hx2, chainStep_ne h m x hxm]
          simp [hx2, hxm]

/-! ### Facts extracted from `memsRep` -/

theorem memsRep_one (h : Heap) (head : Ptr) (isFront : Bool) (prev g r : Ptr)
    (hm : memsRep h head isFront prev [g] r = true) :
    (h g).flags = (if isFront then 15 else 11) ∧ (h g).s0 = head ∧
      (h g).s1 = prev ∧ (h g).s2 = r := by
  simp [memsRep] at hm
  tauto

theorem memsRep_cons2 (h : Heap) (head : Ptr) (isFront : Bool)
    (prev g g2 : Ptr) (t : List Ptr) (r : Ptr)
    (hm : memsRep h head isFront prev (g :: g2 :: t) r = true) :
    (h g).flags = (if isFront then 7 else 3) ∧
      (h g).s0 = (if isFront then head else 0) ∧
      (h g).s1 = prev ∧ (h g).s2 = g2 ∧
      memsRep h head false g (g2 :: t) r = true := by
  simp [memsRep] at hm
  tauto

theorem lastD_mem (l : List Ptr) : ∀ (a : Ptr), lastD a l ∈ a :: l := by
  induction l with
  | nil => intro a; simp [lastD]
  | cons b t ih =>
    intro a
    rcases List.mem_cons.1 (ih b) with hx | hx
    · simp [lastD, hx]
    · simp [lastD]
      right
      exact .inr hx

theorem lastD_cons (a b : Ptr) (t : List Ptr) : lastD a (b :: t) = lastD b t := rfl

theorem memsRep_head_s1 (h : Heap) (head : Ptr) (isFront : Bool) (prev : Ptr)
    (g : Ptr) (gs : List Ptr) (r : Ptr)
    (hm : memsRep h head isFront prev (g :: gs) r = true) : (h g).s1 = prev := by
  cases gs with
  | nil => simp [memsRep] at hm; tauto
  | cons g2 t => simp [memsRep] at hm; tauto

theorem memsRep_last_s2 (h : Heap) (head : Ptr) :
    ∀ (gs : List Ptr) (g : Ptr) (isFront : Bool) (prev r : Ptr),
      memsRep h head isFront prev (g :: gs) r = true →
      (h (lastD g gs)).s2 = r := by
  intro gs
  induction gs with
  | nil =>
    intro g isFront prev r hm
    obtain ⟨_, _, _, h4⟩ := memsRep_one h head isFront prev g r hm
    simpa [lastD] using h4
  | cons g2 t ih =>
    intro g isFront prev r hm
    obtain ⟨_, _, _, _, htail⟩ := memsRep_cons2 h head isFront prev g g2 t r hm
    rw [lastD_cons]
    exact ih g2 false g r htail

theorem memsRep_mid_s0 (h : Heap) (head : Ptr) :
    ∀ (gs : List Ptr) (g : Ptr) (isFront : Bool) (prev r : Ptr),
      memsRep h head isFront prev (g :: gs) r = true →
      ∀ m ∈ gs, m ≠ lastD g gs → (h m).s0 = 0 := by
  intro gs
  induction gs with
  | nil =>
    intro g isFront prev r _ m hm
    simp at hm
  | cons g2 t ih =>
    intro g isFront prev r hrep m hm hne
    rw [lastD_cons] at hne
    obtain ⟨_, _, _, _, htail⟩ := memsRep_cons2 h head isFront prev g g2 t r hrep
    rcases List.mem_cons.1 hm with hm1 | hm2
    · subst hm1
      cases t with
      | nil => simp [lastD] at hne
      | cons t0 tt =>
        obtain ⟨_, hs0, _, _, _⟩ := memsRep_cons2 h head false g m t0 tt r htail
        simpa using hs0
    · exact ih g2 false g r htail m hm2 hne

theorem linksTo_of_memsRep (h h4 : Heap) (head : Ptr) :
    ∀ (gs : List Ptr) (g : Ptr) (isFront : Bool) (prev r : Ptr),
      memsRep h head isFront prev (g :: gs) r = true →
      (∀ m ∈ g :: gs, m ≠ lastD g gs → (h4 m).s2 = (h m).s2) →
      (h4 (lastD g gs)).s2 = 0 →
      (g :: gs).Nodup →
      linksTo h4 (g :: gs) = true := by
  intro gs
  induction gs with
  | nil =>
    intro g isFront prev r _ _ hlast _
    simpa [linksTo, lastD] using hlast
  | cons g2 t ih =>
    intro g isFront prev r hrep hmod hlast hnd
    obtain ⟨_, _, _, hgs2old, htail⟩ := memsRep_cons2 h head isFront prev g g2 t r hrep
    rw [List.nodup_cons] at hnd
    have hlastmem : lastD g (g2 :: t) ∈ g2 :: t := by
      rw [lastD_cons]
      exact lastD_mem t g2
    have hgne : g ≠ lastD g (g2 :: t) := by
      intro hc
      exact hnd.1 (hc ▸ hlastmem)
    have hgs2 : (h4 g).s2 = g2 := by
      rw [hmod g (by simp) hgne]
      exact hgs2old
    simp only [linksTo, Bool.and_eq_true]
    refine ⟨by simp [hgs2], ?_⟩
    refine ih g2 false g r htail ?_ ?_ hnd.2
    · intro m hm hne
      refine hmod m (by simp [List.mem_cons.1 hm]) ?_
      rw [lastD_cons]
      exact hne
    · rw [← lastD_cons g g2 t]
      exact hlast

/-- Effect of the flatten prologue on a well-formed group position. -/
theorem flattenMulext_spec (h : Heap) (id p g : Ptr) (gs : List Ptr)
    (l r : RTree) (fuel : Nat)
    (hrep : repT h p (.node id (g :: gs) l r) = true)
    (hnd : (0 :: p :: idsOf (.node id (g :: gs) l r)).Nodup)
    (hfuel : (g :: gs).length <= fuel) :
    flattenMulext fuel h id =
      fun x =>
        if x = id then (⟨1, (h id).s0, rootPtr l, rootPtr r⟩ : Node)
        else if x ∈ g :: gs then zeroNode
        else h x := by
  -- unpack representation
  simp only [repT, Bool.and_eq_true] at hrep
  obtain ⟨⟨⟨hs0, htag⟩, hrepl⟩, hrepr⟩ := hrep
  obtain ⟨⟨⟨htype, hfr⟩, hbk⟩, hmems⟩ := htag
  simp only [decide_eq_true_eq] at hs0 htype hfr hbk
  -- unpack distinctness
  simp only [idsOf, List.nodup_cons, List.mem_cons, List.mem_append] at hnd
  obtain ⟨hn0, hnp, hnid, hndrest⟩ := hnd
  have hgnodup : (g :: gs).Nodup := ((List.nodup_append.mp hndrest).1)
  have h0mem : (0 : Ptr) ∉ g :: gs := by
    intro hc
    exact hn0 (.inr (.inr (by simp [List.mem_cons.mp hc])))
  have hidmem : id ∉ g :: gs := by
    intro hc
    exact hnid (by simp [List.mem_cons.mp hc])
  have hidg : id ≠ g := fun hc => hidmem (by simp [hc])
  have hbkmem : lastD g gs ∈ g :: gs := lastD_mem gs g
  have hidbk : id ≠ lastD g gs := fun hc => hidmem (hc ▸ hbkmem)
  -- step through the four pre-writes
  rw [flattenMulext]
  simp only [hfr, hbk, writeF_ne, ne_eq, hidg, hidbk, not_false_eq_true]
  rw [memsRep_head_s1 h id true (rootPtr l) g gs (rootPtr r) hmems]
  rw [memsRep_last_s2 h id gs g true (rootPtr l) (rootPtr r) hmems]
  -- the heap handed to the chain walk
  set hD : Heap :=
    writeF (writeF (writeF (writeF h (g, 1) 0) (lastD g gs, 2) 0) (g, 0) 0)
      (lastD g gs, 0) 0 with hhD
  have hDs2 : ∀ m ∈ g :: gs, m ≠ lastD g gs → (hD m).s2 = (h m).s2 := by
    intro m _ hne
    by_cases hmg : m = g
    · subst hmg
      simp [hhD, writeF_apply, setSlot, hne]
    · simp [hhD, writeF_apply, setSlot, hne, hmg]
  have hDlast : (hD (lastD g gs)).s2 = 0 := by
    by_cases hbg : lastD g gs = g <;>
      simp [hhD, writeF_apply, setSlot, hbg]
  have hlinks : linksTo hD (g :: gs) = true :=
    linksTo_of_memsRep h hD id gs g true (rootPtr l) (rootPtr r) hmems hDs2 hDlast hgnodup
  have hchain := pruneChain_spec (g :: gs) hD fuel hlinks hgnodup h0mem hfuel
  simp only at hchain
  rw [hchain]
  -- final pointwise comparison
  funext x
  by_cases hxid : x = id
  · subst hxid
    have hDx : hD x = h x := by
      simp [hhD, writeF_apply, hidg, hidbk]
    have hxgs : x ∉ gs := fun hc => hidmem (by simp [hc])
    simp [writeF_apply, setFlags_apply, setSlot, hidg, hxgs, hDx, rbfSingle]
  · by_cases hxm : x ∈ g :: gs
    · have hxs0 : (hD x).s0 = 0 := by
        by_cases hxg : x = g
        · simp [hhD, writeF_apply, setSlot, hxg]
        · by_cases hxbk : x = lastD g gs
          · simp [hhD, writeF_apply, setSlot, hxbk]
          · have : (h x).s0 = 0 := by
              have hxgs : x ∈ gs := by
                rcases List.mem_cons.1 hxm with h1 | h2
                · exact absurd h1 hxg
                · exact h2
              exact memsRep_mid_s0 h id gs g true (rootPtr l) (rootPtr r) hmems x hxgs hxbk
            simp [hhD, writeF_apply, setSlot, hxg, hxbk, this]
      have hcond : x = g ∨ x ∈ gs := List.mem_cons.1 hxm
      simp [writeF_apply, setFlags_apply, hxid, hcond, hxs0, zeroNode]
    · have hxg : x ≠ g := fun hc => hxm (by simp [hc])
      have hxgs : x ∉ gs := fun hc => hxm (by simp [hc])
      have hDx : hD x = h x := by
        have hxbk : x ≠ lastD g gs := fun hc => hxm (hc ▸ hbkmem)
        simp [hhD, writeF_apply, hxg, hxbk]
      simp [writeF_apply, setFlags_apply, hxid, hxg, hxgs, hDx]



/-- The statement of the teardown induction for one subtree shape. -/
def PruneHyp (s : RTree) : Prop :=
  ∀ (h : Heap) (p : Ptr) (k : Nat),
    repT h p s = true →
    (0 :: p :: idsOf s).Nodup →
    s ≠ .nil →
    pruneLoop (cost s + k) h (rootPtr s) =
      pruneLoop (k + grpExtra s) (resetIds (idsOf s) h) p

theorem pruneLoop_succ (f : Nat) (h : Heap) (n : Ptr) :
    pruneLoop (f + 1) h n =
      if typeOf h n = rbfOrphan then h
      else if typeOf h n = rbfMulext then
        pruneStepAux (pruneLoop f) (flattenMulext f h n) n
      else pruneStepAux (pruneLoop f) h n := rfl

theorem reset_heap_eq (h : Heap) (id : Ptr) (hs1 : (h id).s1 = 0)
    (hs2 : (h id).s2 = 0) :
    writeF (setFlags h id rbfOrphan) (id, 0) 0 = resetIds [id] h := by
  funext x
  by_cases hx : x = id
  · subst hx
    simp [writeF_apply, setFlags_apply, setSlot, resetIds_apply, hs1, hs2,
      zeroNode, rbfOrphan]
  · simp [writeF_apply, setFlags_apply, resetIds_apply, hx]

/-- An iteration-tail at a `Single` position whose left link is already
cleared: consume the right subtree (if any) and the final reset/ascend. -/
theorem pruneStepAux_tree_r (r : RTree) (ihr : PruneHyp r) :
    ∀ (h : Heap) (id p : Ptr) (k F : Nat),
      typeOf h id = rbfSingle →
      (h id).s0 = p → (h id).s1 = 0 → (h id).s2 = rootPtr r →
      repT h id r = true →
      (0 :: p :: id :: idsOf r).Nodup →
      F = (if r = .nil then 0 else 1) + cost r + k →
      pruneStepAux (pruneLoop F) h id =
        pruneLoop (k + grpExtra r) (resetIds (id :: idsOf r) h) p := by
  intro h id p k F htype hs0 hs1 hs2 hrep hnd hF
  cases r with
  | nil =>
    simp only [if_pos rfl, cost, grpExtra, idsOf] at hF ⊢
    subst hF
    rw [pruneStepAux]
    simp only [hs1, rootPtr] at hs2 ⊢
    rw [if_neg (by simp), if_neg (by simp [hs2])]
    have hp : (setFlags h id rbfOrphan id).s0 = p := by
      simp [setFlags_apply, hs0]
    rw [hp, reset_heap_eq h id hs1 hs2]
    simp
  | node idr grpr lr rr =>
    simp only [if_neg (by simp : ¬ (RTree.node idr grpr lr rr = RTree.nil))] at hF
    have hidr0 : idr ≠ 0 := by
      intro hc
      simp [List.nodup_cons, idsOf, hc] at hnd
    have hid_notr : id ∉ idsOf (.node idr grpr lr rr) := by
      simp [List.nodup_cons] at hnd
      tauto
    rw [pruneStepAux]
    rw [if_neg (by simp [hs1])]
    rw [if_pos (by simp [hs2, rootPtr, hidr0])]
    rw [hs2]
    have h1agree : ∀ x ∈ idsOf (.node idr grpr lr rr), writeF h (id, 2) 0 x = h x := by
      intro x hx
      have hxid : x ≠ id := fun hc => hid_notr (hc ▸ hx)
      exact writeF_ne h (id, 2) 0 x hxid
    have hrep1 : repT (writeF h (id, 2) 0) id (.node idr grpr lr rr) = true := by
      rw [repT_congr _ id h _ h1agree]
      exact hrep
    have hnd1 : (0 :: id :: idsOf (.node idr grpr lr rr)).Nodup := by
      refine List.Nodup.sublist ?_ hnd
      exact .cons₂ _ (.cons _ (.cons₂ _ (List.Sublist.refl _)))
    have hFeq : F = cost (.node idr grpr lr rr) + (k + 1) := by omega
    rw [hFeq]
    rw [ihr (writeF h (id, 2) 0) id (k + 1) hrep1 hnd1 (by simp)]
    have hstep : k + 1 + grpExtra (.node idr grpr lr rr) =
        (k + grpExtra (.node idr grpr lr rr)) + 1 := by omega
    rw [hstep, pruneLoop_succ]
    have hmid_id : resetIds (idsOf (.node idr grpr lr rr)) (writeF h (id, 2) 0) id =
        ⟨(h id).flags, (h id).s0, 0, 0⟩ := by
      rw [resetIds_apply, if_neg hid_notr]
      simp [writeF_apply, setSlot, hs1]
    rw [if_neg (by simp [typeOf, hmid_id]; simp [typeOf] at htype; simp [htype, rbfSingle, rbfOrphan])]
    rw [if_neg (by simp [typeOf, hmid_id]; simp [typeOf] at htype; simp [htype, rbfSingle, rbfMulext])]
    rw [pruneStepAux]
    rw [if_neg (by simp [hmid_id])]
    rw [if_neg (by simp [hmid_id])]
    have hp2 : (setFlags (resetIds (idsOf (.node idr grpr lr rr)) (writeF h (id, 2) 0)) id rbfOrphan id).s0 = p := by
      simp [setFlags_apply, hmid_id, hs0]
    simp only []
    rw [hp2]
    rw [reset_heap_eq _ id (by simp [hmid_id]) (by simp [hmid_id])]
    have hheq : resetIds [id]
        (resetIds (idsOf (.node idr grpr lr rr)) (writeF h (id, 2) 0)) =
        resetIds (id :: idsOf (.node idr grpr lr rr)) h := by
      funext x
      by_cases hx : x = id
      · subst hx
        simp [resetIds_apply]
      · by_cases hxr : x ∈ idsOf (.node idr grpr lr rr)
        · simp [resetIds_apply, hx, hxr]
        · simp [resetIds_apply, hx, hxr, writeF_ne h (id, 2) 0 x hx]
    rw [hheq]


/-- An iteration-tail at a `Single` position with both subtrees still
attached: consume the left subtree, then the right, then reset and ascend. -/
theorem pruneStepAux_tree_lr (l r : RTree) (ihl : PruneHyp l) (ihr : PruneHyp r) :
    ∀ (h : Heap) (id p : Ptr) (k F : Nat),
      typeOf h id = rbfSingle →
      (h id).s0 = p → (h id).s1 = rootPtr l → (h id).s2 = rootPtr r →
      repT h id l = true → repT h id r = true →
      (0 :: p :: id :: (idsOf l ++ idsOf r)).Nodup →
      F = (if l = .nil then 0 else 1) + (if r = .nil then 0 else 1) +
        cost l + cost r + k →
      pruneStepAux (pruneLoop F) h id =
        pruneLoop (k + (grpExtra l + grpExtra r))
          (resetIds (id :: (idsOf l ++ idsOf r)) h) p := by
  intro h id p k F htype hs0 hs1 hs2 hrepl hrepr hnd hF
  cases l with
  | nil =>
    have hs1' : (h id).s1 = 0 := by simpa [rootPtr] using hs1
    have hnd' : (0 :: p :: id :: idsOf r).Nodup := by
      refine List.Nodup.sublist ?_ hnd
      simp [idsOf]
    have hF' : F = (if r = .nil then 0 else 1) + cost r + k := by
      simp [cost] at hF
      omega
    have hres := pruneStepAux_tree_r r ihr h id p k F htype hs0 hs1' hs2 hrepr hnd' hF'
    simpa [grpExtra, idsOf] using hres
  | node idl grpl ll lr2 =>
    have hidl0 : idl ≠ 0 := by
      intro hc
      simp [List.nodup_cons, idsOf, hc] at hnd
    have hid_notl : id ∉ idsOf (.node idl grpl ll lr2) := by
      simp only [List.nodup_cons, List.mem_cons, List.mem_append] at hnd
      intro hc
      exact hnd.2.2.1 (.inl hc)
    have hid_notr : id ∉ idsOf r := by
      simp only [List.nodup_cons, List.mem_cons, List.mem_append] at hnd
      intro hc
      exact hnd.2.2.1 (.inr hc)
    have hdisj : ∀ x ∈ idsOf r, x ∉ idsOf (.node idl grpl ll lr2) := by
      simp only [List.nodup_cons, List.mem_cons, List.mem_append] at hnd
      intro x hx hc
      have hsplit := List.disjoint_of_nodup_append hnd.2.2.2
      exact hsplit hc hx
    rw [pruneStepAux]
    rw [if_pos (by simp [hs1, rootPtr, hidl0])]
    rw [hs1]
    have h1agree : ∀ x ∈ idsOf (.node idl grpl ll lr2), writeF h (id, 1) 0 x = h x := by
      intro x hx
      have hxid : x ≠ id := fun hc => hid_notl (hc ▸ hx)
      exact writeF_ne h (id, 1) 0 x hxid
    have hrep1 : repT (writeF h (id, 1) 0) id (.node idl grpl ll lr2) = true := by
      rw [repT_congr _ id h _ h1agree]
      exact hrepl
    have hnd1 : (0 :: id :: idsOf (.node idl grpl ll lr2)).Nodup := by
      refine List.Nodup.sublist ?_ hnd
      refine .cons₂ _ (.cons _ (.cons₂ _ ?_))
      exact List.sublist_append_left _ _
    have hFeq : F = cost (.node idl grpl ll lr2) +
        ((if r = .nil then 0 else 1) + cost r + k + 1) := by
      simp only [if_neg (by simp : ¬ (RTree.node idl grpl ll lr2 = RTree.nil))] at hF
      omega
    rw [hFeq]
    rw [ihl (writeF h (id, 1) 0) id ((if r = .nil then 0 else 1) + cost r + k + 1)
      hrep1 hnd1 (by simp)]
    have hstep : (if r = .nil then 0 else 1) + cost r + k + 1 +
        grpExtra (.node idl grpl ll lr2) =
        ((if r = .nil then 0 else 1) + cost r +
          (k + grpExtra (.node idl grpl ll lr2))) + 1 := by omega
    rw [hstep, pruneLoop_succ]
    have hmid_id : resetIds (idsOf (.node idl grpl ll lr2)) (writeF h (id, 1) 0) id =
        ⟨(h id).flags, (h id).s0, 0, (h id).s2⟩ := by
      rw [resetIds_apply, if_neg hid_notl]
      simp [writeF_apply, setSlot]
    have htype1 : typeOf (resetIds (idsOf (.node idl grpl ll lr2)) (writeF h (id, 1) 0)) id
        = rbfSingle := by
      simp only [typeOf, hmid_id]
      simpa [typeOf] using htype
    rw [if_neg (by simp [htype1, rbfSingle, rbfOrphan])]
    rw [if_neg (by simp [htype1, rbfSingle, rbfMulext])]
    have hmagree : ∀ x ∈ idsOf r,
        resetIds (idsOf (.node idl grpl ll lr2)) (writeF h (id, 1) 0) x = h x := by
      intro x hx
      rw [resetIds_apply, if_neg (hdisj x hx)]
      have hxid : x ≠ id := fun hc => hid_notr (hc ▸ hx)
      exact writeF_ne h (id, 1) 0 x hxid
    have hrepm : repT (resetIds (idsOf (.node idl grpl ll lr2)) (writeF h (id, 1) 0)) id r
        = true := by
      rw [repT_congr _ id h _ hmagree]
      exact hrepr
    have hndm : (0 :: p :: id :: idsOf r).Nodup := by
      refine List.Nodup.sublist ?_ hnd
      refine .cons₂ _ (.cons₂ _ (.cons₂ _ ?_))
      exact List.sublist_append_right _ _
    rw [pruneStepAux_tree_r r ihr _ id p (k + grpExtra (.node idl grpl ll lr2)) _
      htype1 (by simp [hmid_id, hs0]) (by simp [hmid_id]) (by simp [hmid_id, hs2])
      hrepm hndm rfl]
    have hheq : resetIds (id :: idsOf r)
        (resetIds (idsOf (.node idl grpl ll lr2)) (writeF h (id, 1) 0)) =
        resetIds (id :: (idsOf (.node idl grpl ll lr2) ++ idsOf r)) h := by
      funext x
      by_cases hx : x = id
      · subst hx
        simp [resetIds_apply]
      · by_cases hxl : x ∈ idsOf (.node idl grpl ll lr2)
        · simp [resetIds_apply, hx, hxl]
        · by_cases hxr : x ∈ idsOf r
          · simp [resetIds_apply, hx, hxl, hxr]
          · simp [resetIds_apply, hx, hxl, hxr, writeF_ne h (id, 1) 0 x hx]
    rw [hheq]
    have harith : k + grpExtra (.node idl grpl ll lr2) + grpExtra r =
        k + (grpExtra (.node idl grpl ll lr2) + grpExtra r) := by omega
    rw [harith]


/-- The teardown loop consumes a represented subtree: it resets every
address of the shape to the all-zero orphan node and ascends to the
parent, with the fuel bookkeeping made explicit. -/
theorem pruneLoop_tree (s : RTree) : PruneHyp s := by
  induction s with
  | nil =>
    intro h p k _ _ hne
    exact absurd rfl hne
  | node id grp l r ihl ihr =>
    intro h p k hrep hnd _
    cases grp with
    | nil =>
      simp only [repT, Bool.and_eq_true] at hrep
      obtain ⟨⟨⟨hs0, htag⟩, hrepl⟩, hrepr⟩ := hrep
      obtain ⟨⟨htype, hs1⟩, hs2⟩ := htag
      simp only [decide_eq_true_eq] at hs0 htype hs1 hs2
      have hc : cost (RTree.node id [] l r) + k =
          ((if l = RTree.nil then 0 else 1) + (if r = RTree.nil then 0 else 1) +
            cost l + cost r + k) + 1 := by
        simp only [cost, List.length_nil]
        omega
      rw [hc]
      simp only [rootPtr]
      rw [pruneLoop_succ]
      rw [if_neg (by simp [htype, rbfSingle, rbfOrphan])]
      rw [if_neg (by simp [htype, rbfSingle, rbfMulext])]
      have hnd' : (0 :: p :: id :: (idsOf l ++ idsOf r)).Nodup := by
        simpa [idsOf] using hnd
      rw [pruneStepAux_tree_lr l r ihl ihr h id p k _ htype hs0 hs1 hs2
        hrepl hrepr hnd' rfl]
      have harith : k + (grpExtra l + grpExtra r) =
          k + grpExtra (RTree.node id [] l r) := by
        simp [grpExtra]
      rw [harith]
      have hids : resetIds (id :: (idsOf l ++ idsOf r)) h =
          resetIds (idsOf (RTree.node id [] l r)) h := by
        funext x
        simp [resetIds_apply, idsOf]
      rw [hids]
    | cons g gs =>
      have hrep0 := hrep
      simp only [repT, Bool.and_eq_true] at hrep
      obtain ⟨⟨⟨hs0, htag⟩, hrepl⟩, hrepr⟩ := hrep
      obtain ⟨⟨⟨htype, hfr⟩, hbk⟩, hmems⟩ := htag
      simp only [decide_eq_true_eq] at hs0 htype hfr hbk
      -- distinctness pieces, from a working copy of the nodup hypothesis
      have hndC := hnd
      simp only [idsOf, List.nodup_cons] at hndC
      have hid_big : id ∉ g :: gs ++ (idsOf l ++ idsOf r) := hndC.2.2.1
      have hdisj0 := List.disjoint_of_nodup_append hndC.2.2.2
      have hid_notg : id ∉ g :: gs := by
        intro hc2
        rcases List.mem_cons.1 hc2 with he | hm
        · exact hid_big (he ▸ List.mem_cons_self _ _)
        · exact hid_big (List.mem_cons_of_mem _ (List.mem_append_left _ hm))
      have hid_notlr : id ∉ idsOf l ++ idsOf r := by
        intro hc2
        exact hid_big (List.mem_cons_of_mem _ (List.mem_append_right _ hc2))
      have hdisjlr : ∀ x, x ∈ idsOf l ++ idsOf r → x ∉ g :: gs := by
        intro x hx hc2
        rcases List.mem_cons.1 hc2 with he | hm
        · subst he
          exact (hdisj0 (List.mem_cons_self _ _)) hx
        · exact (hdisj0 (List.mem_cons_of_mem _ hm)) hx
      have hc : cost (RTree.node id (g :: gs) l r) + k =
          ((g :: gs).length + (if l = RTree.nil then 0 else 1) +
            (if r = RTree.nil then 0 else 1) + cost l + cost r + k) + 1 := by
        simp only [cost]
        omega
      rw [hc]
      simp only [rootPtr]
      rw [pruneLoop_succ]
      rw [if_neg (by simp [htype, rbfMulext, rbfOrphan])]
      rw [if_pos htype]
      rw [flattenMulext_spec h id p g gs l r _ hrep0 hnd (by simp; omega)]
      set hF : Heap := fun x =>
        if x = id then (⟨1, (h id).s0, rootPtr l, rootPtr r⟩ : Node)
        else if x ∈ g :: gs then zeroNode
        else h x with hhF
      have hFid : hF id = ⟨1, (h id).s0, rootPtr l, rootPtr r⟩ := by
        simp [hhF]
      have hFagree : ∀ x, x ∈ idsOf l ++ idsOf r → hF x = h x := by
        intro x hx
        have hx1 : x ≠ id := fun hc2 => hid_notlr (hc2 ▸ hx)
        have hx2 : x ∉ g :: gs := hdisjlr x hx
        simp only [hhF]
        rw [if_neg hx1, if_neg hx2]
      have hrepl2 : repT hF id l = true := by
        rw [repT_congr l id h hF (fun x hx => hFagree x (List.mem_append_left _ hx))]
        exact hrepl
      have hrepr2 : repT hF id r = true := by
        rw [repT_congr r id h hF (fun x hx => hFagree x (List.mem_append_right _ hx))]
        exact hrepr
      have hnd' : (0 :: p :: id :: (idsOf l ++ idsOf r)).Nodup := by
        refine List.Nodup.sublist ?_ hnd
        refine .cons₂ _ (.cons₂ _ ?_)
        simp only [idsOf]
        refine .cons₂ _ ?_
        exact List.sublist_append_right _ _
      rw [pruneStepAux_tree_lr l r ihl ihr hF id p (k + (g :: gs).length) _
        (by simp only [typeOf, hFid]; decide)
        (by simp [hFid, hs0]) (by simp [hFid]) (by simp [hFid])
        hrepl2 hrepr2 hnd' (by omega)]
      have harith : k + (g :: gs).length + (grpExtra l + grpExtra r) =
          k + grpExtra (RTree.node id (g :: gs) l r) := by
        simp only [grpExtra]
        omega
      rw [harith]
      have hids : resetIds (id :: (idsOf l ++ idsOf r)) hF =
          resetIds (idsOf (RTree.node id (g :: gs) l r)) h := by
        funext x
        rw [resetIds_apply, resetIds_apply]
        by_cases hx : x = id
        · rw [if_pos (by simp [hx]), if_pos (by simp [idsOf, hx])]
        · by_cases hxg : x ∈ g :: gs
          · have hxlr : x ∉ idsOf l ++ idsOf r := fun hc2 => hdisjlr x hc2 hxg
            rw [if_neg (by
              intro hc2
              rcases List.mem_cons.1 hc2 with he | hm
              · exact hx he
              · exact hxlr hm)]
            rw [if_pos (by
              simp only [idsOf]
              exact List.mem_cons_of_mem _ (List.mem_append_left _ hxg))]
            simp only [hhF]
            rw [if_neg hx, if_pos hxg]
          · by_cases hxlr : x ∈ idsOf l ++ idsOf r
            · rw [if_pos (List.mem_cons_of_mem _ hxlr)]
              rw [if_pos (by
                simp only [idsOf]
                exact List.mem_cons_of_mem _ (List.mem_append_right _ hxlr))]
            · rw [if_neg (by
                intro hc2
                rcases List.mem_cons.1 hc2 with he | hm
                · exact hx he
                · exact hxlr hm)]
              rw [if_neg (by
                simp only [idsOf]
                intro hc2
                rcases List.mem_cons.1 hc2 with he | hm
                · exact hx he
                · rcases List.mem_append.1 hm with h1 | h2
                  · exact hxg h1
                  · exact hxlr h2)]
              simp only [hhF]
              rw [if_neg hx, if_neg hxg]
      rw [hids]


/-- C7: `sentinelPrune` on a well-formed tree (arbitrary positions, duplicate
groups of any size, any coloring) terminates within fuel linear in the tree
size — `cost s + grpExtra s + 2` loop iterations, matching the claimed single
non-recursive pass — resets every reachable node, including every group
member, to the all-zero `Orphan` state (tag `rbfOrphan`, all links cleared,
so each node is as freshly constructed and re-insertable), and clears the
sentinel's root handle. -/
theorem c7_sentinelPrune_resets_reachable (s : RTree) (h : Heap) (sent : Ptr)
    (hrep : repT h sent s = true)
    (hsent : typeOf h sent = rbfOrphan)
    (hroot : (h sent).s1 = rootPtr s)
    (hnd : (0 :: sent :: idsOf s).Nodup) :
    (∀ i ∈ idsOf s, sentinelPrune (cost s + grpExtra s + 2) h sent i = zeroNode) ∧
    (sentinelPrune (cost s + grpExtra s + 2) h sent sent).s1 = 0 := by
  cases s with
  | nil =>
    rw [sentinelPrune]
    simp only [hroot, rootPtr, if_pos rfl]
    exact ⟨by intro i hi; simp [idsOf] at hi, by simpa [rootPtr] using hroot⟩
  | node id grp l r =>
    have hid0 : id ≠ 0 := by
      intro hc
      simp [List.nodup_cons, idsOf, hc] at hnd
    have hsent_not : sent ∉ idsOf (.node id grp l r) := by
      simp only [List.nodup_cons] at hnd
      exact hnd.2.1
    rw [sentinelPrune]
    simp only [hroot, rootPtr]
    rw [if_neg hid0]
    have hagree : ∀ x ∈ idsOf (.node id grp l r), writeF h (sent, 1) 0 x = h x := by
      intro x hx
      have hxs : x ≠ sent := fun hc => hsent_not (hc ▸ hx)
      exact writeF_ne h (sent, 1) 0 x hxs
    have hrep1 : repT (writeF h (sent, 1) 0) sent (.node id grp l r) = true := by
      rw [repT_congr _ sent h _ hagree]
      exact hrep
    have hfuel : cost (.node id grp l r) + grpExtra (.node id grp l r) + 2 =
        cost (.node id grp l r) + (grpExtra (.node id grp l r) + 2) := by omega
    rw [hfuel]
    have hloop := pruneLoop_tree (.node id grp l r) (writeF h (sent, 1) 0) sent
      (grpExtra (.node id grp l r) + 2) hrep1 hnd (by simp)
    simp only [rootPtr] at hloop
    rw [hloop]
    have hstep : grpExtra (.node id grp l r) + 2 + grpExtra (.node id grp l r) =
        (grpExtra (.node id grp l r) + 1 + grpExtra (.node id grp l r)) + 1 := by omega
    rw [hstep, pruneLoop_succ]
    have hsentval : resetIds (idsOf (.node id grp l r)) (writeF h (sent, 1) 0) sent =
        ⟨(h sent).flags, (h sent).s0, 0, (h sent).s2⟩ := by
      rw [resetIds_apply, if_neg hsent_not]
      simp [writeF_apply, setSlot]
    have htypes : typeOf (resetIds (idsOf (.node id grp l r)) (writeF h (sent, 1) 0)) sent
        = rbfOrphan := by
      simp only [typeOf, hsentval]
      simpa [typeOf] using hsent
    rw [if_pos htypes]
    constructor
    · intro i hi
      rw [resetIds_apply, if_pos hi]
    · rw [hsentval]


/-- Concrete C7 scenario: sentinel 1; root position 2 is a black GroupHead
with three queue members 5, 6, 7 (front to back); left child 3 is a red
`Single` leaf, right child 4 a black `Single` with right child 8. -/
def c7Heap : Heap := mkHeap
  [(1, ⟨0, 0, 2, 0⟩),
   (2, ⟨6, 1, 7, 5⟩),
   (5, ⟨7, 2, 3, 6⟩),
   (6, ⟨3, 0, 5, 7⟩),
   (7, ⟨11, 2, 6, 4⟩),
   (3, ⟨1, 2, 0, 0⟩),
   (4, ⟨5, 2, 0, 8⟩),
   (8, ⟨1, 4, 0, 0⟩)]

def c7Shape : RTree :=
  .node 2 [5, 6, 7] (.node 3 [] .nil .nil)
    (.node 4 [] .nil (.node 8 [] .nil .nil))

/-- Witness for C7 at the concrete tree. -/
theorem c7_sentinelPrune_resets_reachable_witness :
    repT c7Heap 1 c7Shape = true ∧ typeOf c7Heap 1 = rbfOrphan ∧
    (c7Heap 1).s1 = rootPtr c7Shape ∧ (0 :: 1 :: idsOf c7Shape).Nodup ∧
    ((∀ i ∈ idsOf c7Shape,
        sentinelPrune (cost c7Shape + grpExtra c7Shape + 2) c7Heap 1 i = zeroNode) ∧
      (sentinelPrune (cost c7Shape + grpExtra c7Shape + 2) c7Heap 1 1).s1 = 0) :=
  ⟨by decide, by decide, by decide, by decide,
    c7_sentinelPrune_resets_reachable c7Shape c7Heap 1 (by decide) (by decide)
      (by decide) (by decide)⟩

end Exotic
